import Mathlib

/-!
Shallow embedding of the multi-channel data-line simulation
(`Sim/DataLine.py`) and the frame packetisers (`Sim/packet_builder.py`).

Python objects become Lean structures with explicit state passing;
fallible operations return `Except`/`Option`; machine integers are `Int`
with explicit range checks as in the source.  The pixel-row encoder is an
external capability of the core (it is consumed only through "produce
zero, one, or two words"), so `produce_and_push` is parameterised by the
encoder's result instead of embedding the encoder.
Print-only diagnostics and the `_buffer_space_track` occupancy log of
`channel` are omitted: no modelled behaviour reads them.
-/

/-- Errors raised by the bounded queue (`fifo` in `Sim/DataLine.py`):
range ("Data out of range for FIFO width"), full ("FIFO is full"),
empty ("FIFO is empty"). -/
inductive FifoError where
  | range
  | full
  | empty
deriving DecidableEq, Repr

/-- The bounded FIFO of `Sim/DataLine.py` (`class fifo`): a Python list
`buffer` plus configured `data_depth` and `data_width`. -/
structure Fifo where
  buffer : List Int
  data_depth : Nat
  data_width : Nat
deriving DecidableEq, Repr

/-- `fifo.push`: range check first (`data > 2**width - 1 or data < 0`),
then append if `len(buffer) < data_depth`, else "FIFO is full". -/
def Fifo.push (f : Fifo) (data : Int) : Except FifoError Fifo :=
  if data > 2 ^ f.data_width - 1 ∨ data < 0 then
    .error .range
  else if f.buffer.length < f.data_depth then
    .ok { f with buffer := f.buffer ++ [data] }
  else
    .error .full

/-- `fifo.pop`: if non-empty, remove and return `buffer.pop(0)` (the
oldest element); else "FIFO is empty". -/
def Fifo.pop (f : Fifo) : Except FifoError (Int × Fifo) :=
  match f.buffer with
  | [] => .error .empty
  | d :: rest => .ok (d, { f with buffer := rest })

/-- `fifo.is_empty`. -/
def Fifo.is_empty (f : Fifo) : Bool := f.buffer.isEmpty

/-- `fifo.is_full`. -/
def Fifo.is_full (f : Fifo) : Bool := f.buffer.length == f.data_depth

/-- `fifo.space_available = data_depth - len(buffer)`. -/
def Fifo.space_available (f : Fifo) : Nat := f.data_depth - f.buffer.length

/-- `fifo.almost_full = len(buffer) >= data_depth - 4` (for depths below 4
the Python right-hand side is negative and the predicate is always true;
truncated subtraction on `Nat` gives the same truth value). -/
def Fifo.almost_full (f : Fifo) : Bool := decide (f.data_depth - 4 ≤ f.buffer.length)

/-- `fifo.space_used = len(buffer)`. -/
def Fifo.space_used (f : Fifo) : Nat := f.buffer.length

/-- A channel (`class channel`): identity plus its owned FIFO.  The
encoder object it also owns is external state opaque to the core. -/
structure Channel where
  id : Nat
  fifo : Fifo
deriving DecidableEq, Repr

/-- Result of one `encoder.encode_live` call: nothing, a single word, or
a tuple of two words (resynchronisation word then data word). -/
inductive EncResult where
  | nothing
  | one (w : Int)
  | two (w1 w2 : Int)
deriving DecidableEq, Repr

/-- `channel.produce_and_push`, with the encoder call abstracted by its
result `enc`.  The source first raises if the FIFO is already full, then
pushes each returned word in order; a raise during the second push of a
tuple leaves the first word enqueued (Python mutation survives the
exception).  Returns the channel state at exit together with the error
raised, if any. -/
def Channel.produce_and_push (ch : Channel) (enc : EncResult) :
    Channel × Option FifoError :=
  if ch.fifo.is_full then
    (ch, some .full)
  else
    match enc with
    | .nothing => (ch, none)
    | .one w =>
      match ch.fifo.push w with
      | .ok f => ({ ch with fifo := f }, none)
      | .error e => (ch, some e)
    | .two w1 w2 =>
      match ch.fifo.push w1 with
      | .ok f1 =>
        match f1.push w2 with
        | .ok f2 => ({ ch with fifo := f2 }, none)
        | .error e => ({ ch with fifo := f1 }, some e)
      | .error e => (ch, some e)

/-- Channel used for out-of-range list indexing (never reached under the
index bounds established by the theorems). -/
def defaultChannel : Channel := { id := 0, fifo := { buffer := [], data_depth := 0, data_width := 0 } }

/-- `self.channels[i]`. -/
def getCh (chs : List Channel) (i : Nat) : Channel := chs.getD i defaultChannel

/-- Total number of buffered words across all channels. -/
def totalWords (chs : List Channel) : Nat := (chs.map (fun ch => ch.fifo.buffer.length)).sum

/-- State of the base round-robin `class arbiter` (also reused by
`RoundRobinSkipEmpty`, which only overrides selection): the channel
list, the `last_served` pointer (initialised to `-1`) and the
`channel_select` log of served channel ids. -/
structure ArbState where
  channels : List Channel
  last_served : Int
  channel_select : List Nat
deriving DecidableEq, Repr

/-- `arbiter.select_channel`: advance `last_served = (last_served+1) % N`
and return that channel's index. -/
def arb_select (s : ArbState) : ArbState × Nat :=
  let ls := (s.last_served + 1) % (s.channels.length : Int)
  ({ s with last_served := ls }, ls.toNat)

/-- `arbiter.step`: select, then pop and log the id if the selected FIFO
is non-empty, else skip (print only). -/
def arbiter_step (s : ArbState) : Except FifoError ArbState :=
  let sel := arb_select s
  let s1 := sel.1
  let ch := getCh s1.channels sel.2
  if ¬ ch.fifo.is_empty then
    match ch.fifo.pop with
    | .error e => .error e
    | .ok (_, f) =>
      .ok { s1 with channels := s1.channels.set sel.2 { ch with fifo := f },
                    channel_select := s1.channel_select ++ [ch.id] }
  else
    .ok s1

/-- The indices returned by `k` consecutive `arbiter.select_channel`
calls, in order. -/
def selectOutputs (s : ArbState) : Nat → List Nat
  | 0 => []
  | k + 1 =>
    let sel := arb_select s
    sel.2 :: selectOutputs sel.1 k

/-- State of `class ArbiterUrgency(arbiter)`: the inherited arbiter state
plus per-channel `urgency` and `age` counters (numpy int arrays of zeros
of length N at construction). -/
structure UrgState where
  channels : List Channel
  last_served : Int
  channel_select : List Nat
  urgency : List Nat
  age : List Nat
deriving DecidableEq, Repr

/-- The scoring loop of `ArbiterUrgency.select_channel`: for each channel
`i`, if empty then `urgency[i]=0, age[i]=0`; elif `age[i] < 255` then
`age[i] += 1`; in all cases `urgency[i] = space_used*4 + age[i]`.
Returns the list of `(urgency, age)` pairs after the pass. -/
def scoreChannels : List Channel → List Nat → List (Nat × Nat)
  | [], _ => []
  | ch :: chs, ages =>
    let a := ages.headD 0
    let a2 := if ch.fifo.is_empty then 0 else if a < 255 then a + 1 else a
    (ch.fifo.space_used * 4 + a2, a2) :: scoreChannels chs ages.tail

/-- `np.argmax`: index of the first occurrence of the maximum.
Accumulator form over the list, carrying (next index, best index, best value);
the initial best value 0 is a lower bound for the `Nat`-valued urgencies,
so the first element ties with it and index 0 is kept, as `np.argmax` does. -/
def argmaxAux : List Nat → Nat → Nat → Nat → Nat
  | [], _, bi, _ => bi
  | v :: rest, i, bi, bv =>
    if v > bv then argmaxAux rest (i + 1) i v else argmaxAux rest (i + 1) bi bv

/-- First-occurrence argmax of a list of urgencies (0 on the empty list). -/
def argmaxFirst (l : List Nat) : Nat := argmaxAux l 0 0 0

/-- `ArbiterUrgency.select_channel`: run the scoring pass, take the
first-occurrence argmax of the urgencies, record it in `last_served` and
return its index. -/
def urg_select (s : UrgState) : UrgState × Nat :=
  let scored := scoreChannels s.channels s.age
  let m := argmaxFirst (scored.map Prod.fst)
  ({ s with urgency := scored.map Prod.fst,
            age := scored.map Prod.snd,
            last_served := (m : Int) }, m)

/-- `ArbiterUrgency.step`: select; if the selected FIFO is non-empty, pop,
log the id and reset `age[id]`; otherwise reset `urgency[id]` and
`age[id]` to 0 and still log the id (the source appends to
`channel_select` in both branches). -/
def urg_step (s : UrgState) : Except FifoError UrgState :=
  let sel := urg_select s
  let s1 := sel.1
  let ch := getCh s1.channels sel.2
  if ¬ ch.fifo.is_empty then
    match ch.fifo.pop with
    | .error e => .error e
    | .ok (_, f) =>
      .ok { s1 with channels := s1.channels.set sel.2 { ch with fifo := f },
                    channel_select := s1.channel_select ++ [ch.id],
                    age := s1.age.set ch.id 0 }
  else
    .ok { s1 with urgency := s1.urgency.set ch.id 0,
                  age := s1.age.set ch.id 0,
                  channel_select := s1.channel_select ++ [ch.id] }

/-- The probe loop of `RoundRobinSkipEmpty.select_channel`: advance the
pointer up to `fuel` times (the source uses `range(num_of_channels)`),
returning the pointer position and the first non-empty channel index
found, or `none` with the pointer left at its last probed position. -/
def rrse_find (chs : List Channel) : Int → Nat → Int × Option Nat
  | ls, 0 => (ls, none)
  | ls, fuel + 1 =>
    let ls2 := (ls + 1) % (chs.length : Int)
    if ¬ (getCh chs ls2.toNat).fifo.is_empty then (ls2, some ls2.toNat)
    else rrse_find chs ls2 fuel

/-- `RoundRobinSkipEmpty.select_channel`. -/
def rrse_select (s : ArbState) : ArbState × Option Nat :=
  let r := rrse_find s.channels s.last_served s.channels.length
  ({ s with last_served := r.1 }, r.2)

/-- `RoundRobinSkipEmpty.step`: if selection found a channel, pop it
unconditionally (no second emptiness check in the source) and log the
id; if all channels were empty, skip. -/
def rrse_step (s : ArbState) : Except FifoError ArbState :=
  let sel := rrse_select s
  let s1 := sel.1
  match sel.2 with
  | some i =>
    let ch := getCh s1.channels i
    match ch.fifo.pop with
    | .error e => .error e
    | .ok (_, f) =>
      .ok { s1 with channels := s1.channels.set i { ch with fifo := f },
                    channel_select := s1.channel_select ++ [ch.id] }
  | none => .ok s1

/-- State of `class CARRArbiter(arbiter)`: channels and the
`channel_select` log inherited from `arbiter` (the inherited
`last_served` pointer is unused by this policy), the sticky `curr_idx`
(`0` when channels exist, `-1` otherwise), the consecutive-read
`burst_count`, the `max_reads` burst cap and `last_popped_word`. -/
structure CarrState where
  channels : List Channel
  channel_select : List Nat
  curr_idx : Int
  burst_count : Nat
  max_reads : Nat
  last_popped_word : Option Int
deriving DecidableEq, Repr

/-- `CARRArbiter._all_empty`. -/
def carr_all_empty (s : CarrState) : Bool := s.channels.all (fun ch => ch.fifo.is_empty)

/-- The loop of `CARRArbiter._advance_to_next_non_empty`: advance
`curr_idx` in round-robin order until a non-empty FIFO is found, with at
most `fuel = num_of_channels` probes. -/
def carr_advanceAux (chs : List Channel) : Int → Nat → Int
  | c, 0 => c
  | c, fuel + 1 =>
    let c2 := (c + 1) % (chs.length : Int)
    if ¬ (getCh chs c2.toNat).fifo.is_empty then c2
    else carr_advanceAux chs c2 fuel

/-- `CARRArbiter._advance_to_next_non_empty`: keep `curr_idx` unchanged
when all FIFOs are empty, else probe round-robin. -/
def carr_advance (s : CarrState) : Int :=
  if carr_all_empty s then s.curr_idx
  else carr_advanceAux s.channels s.curr_idx s.channels.length

/-- `CARRArbiter._find_almost_full_other`: for `k in 1..n`, probe
`j = (curr_idx + k) % n`; return the first `j` other than the current
index that is almost full and non-empty, else `none`. -/
def carr_find_almost_full_other (s : CarrState) : Option Nat :=
  let n := s.channels.length
  ((List.range n).map (fun k => k + 1)).findSome? (fun k =>
    let j := ((s.curr_idx + Int.ofNat k) % (n : Int)).toNat
    if (j : Int) ≠ s.curr_idx ∧ (getCh s.channels j).fifo.almost_full
        ∧ ¬ (getCh s.channels j).fifo.is_empty then some j else none)

/-- `CARRArbiter.select_channel`, the four prioritised rules in source
order: hold when all empty; preempt to an almost-full other channel and
reset `burst_count`; advance past an empty current channel and reset
`burst_count`; advance on reaching the burst cap and reset
`burst_count`; else stick.  Returns the updated state and the selected
index.  (The source raises when no channels are connected; every use
below is guarded by a non-empty channel list.) -/
def carr_select (s : CarrState) : CarrState × Nat :=
  if carr_all_empty s then (s, s.curr_idx.toNat)
  else
    match carr_find_almost_full_other s with
    | some j => ({ s with curr_idx := (j : Int), burst_count := 0 }, j)
    | none =>
      if (getCh s.channels s.curr_idx.toNat).fifo.is_empty then
        let c2 := carr_advance s
        ({ s with curr_idx := c2, burst_count := 0 }, c2.toNat)
      else if s.max_reads ≤ s.burst_count then
        let c2 := carr_advance s
        ({ s with curr_idx := c2, burst_count := 0 }, c2.toNat)
      else (s, s.curr_idx.toNat)

/-- `CARRArbiter.step`: return immediately with no channels; if all
FIFOs are empty, clear `last_popped_word` and idle; else select, and if
the selected FIFO is non-empty pop it, record the word, log the id and
increment `burst_count`, otherwise clear the word and reset
`burst_count`. -/
def carr_step (s : CarrState) : Except FifoError CarrState :=
  if s.channels.length = 0 then .ok s
  else if carr_all_empty s then .ok { s with last_popped_word := none }
  else
    let sel := carr_select s
    let s1 := sel.1
    let ch := getCh s1.channels sel.2
    if ¬ ch.fifo.is_empty then
      match ch.fifo.pop with
      | .error e => .error e
      | .ok (w, f) =>
        .ok { s1 with channels := s1.channels.set sel.2 { ch with fifo := f },
                      last_popped_word := some w,
                      channel_select := s1.channel_select ++ [ch.id],
                      burst_count := s1.burst_count + 1 }
    else
      .ok { s1 with last_popped_word := none, burst_count := 0 }

/-!
Dual-clock scheduler arithmetic of `AsyncDataline.__init__`.  The write
and read frequencies have 0.1-MHz resolution; a frequency `F` is the
natural `a = 10*F` in tenths of MHz.  Two embeddings are given.  The
first (`LCM_freq` and friends) is the exact arithmetic the class
docstring and the derived LCM relationship describe, with
`wr_freq*rd_freq*100 = a*b`.  The source, however, evaluates
`int(wr_freq*rd_freq*100)` in IEEE-754 doubles, and the truncating
`int()` can land one below the exact product (`1.0*2.3*100` is the
double `229.99999999999997`, so `int` gives 229, not 230).  The second
embedding (`LCM_freq_py` and friends) models that float evaluation
exactly: a double is the dyadic rational produced by
round-to-nearest-even at 53 significant bits, carried as a
numerator/denominator pair of naturals.
-/

/-- Exact-arithmetic `self.LCM_freq = int(wr_freq*rd_freq*100) //
math.gcd(int(wr_freq*10), int(rd_freq*10))` with `a = 10*wr_freq`,
`b = 10*rd_freq` and the product taken exactly (`= a*b`). -/
def LCM_freq (a b : Nat) : Nat := a * b / Nat.gcd a b

/-- Exact-arithmetic `self.wr_enable_tick = self.LCM_freq // int(wr_freq*10)`. -/
def wr_enable_tick (a b : Nat) : Nat := LCM_freq a b / a

/-- Exact-arithmetic `self.rd_enable_tick = self.LCM_freq // int(rd_freq*10)`. -/
def rd_enable_tick (a b : Nat) : Nat := LCM_freq a b / b

/-- Fuel-bounded floor of the base-2 logarithm (fuel 256 covers every
number below `2^256`, far beyond all intermediate values here). -/
def log2fuel : Nat → Nat → Nat
  | 0, _ => 0
  | fuel + 1, n => if n ≤ 1 then 0 else log2fuel fuel (n / 2) + 1

/-- Floor of the base-2 logarithm of a natural. -/
def natLog2 (n : Nat) : Nat := log2fuel 256 n

/-- Floor of the base-2 logarithm of the positive rational `p/q`:
writing `p = 2^i u` and `q = 2^j v` with `u, v ∈ [1, 2)`, the result is
`i - j` when `u ≥ v` (i.e. `q*2^i ≤ p*2^j`) and `i - j - 1` otherwise. -/
def ratFloorLog2 (p q : Nat) : Int :=
  let i := natLog2 p
  let j := natLog2 q
  if q * 2 ^ i ≤ p * 2 ^ j then (i : Int) - j else (i : Int) - j - 1

/-- Round the non-negative rational `num/den` to the nearest integer,
ties to even — the IEEE-754 default rounding of the scaled mantissa. -/
def roundMantissa (num den : Nat) : Nat :=
  let m0 := num / den
  let r := num % den
  if den < 2 * r then m0 + 1
  else if 2 * r < den then m0
  else if m0 % 2 = 0 then m0 else m0 + 1

/-- The IEEE-754 double nearest to the non-negative rational `p/q`
(normal range), returned as an exact numerator/denominator pair: scale
`p/q` by a power of two into `[2^52, 2^53)`, round to the nearest
integer mantissa `m` (ties to even) and undo the scaling.  A carry to
`m = 2^53` needs no special case, since `2^53 * 2^(e-52)` is already the
exact value of the next binade's smallest double. -/
def roundDoubleR (p q : Nat) : Nat × Nat :=
  if p = 0 then (0, 1)
  else
    let e := ratFloorLog2 p q
    let s := 52 - e
    let num := if 0 ≤ s then p * 2 ^ s.toNat else p
    let den := if 0 ≤ s then q else q * 2 ^ (-s).toNat
    let m := roundMantissa num den
    if 52 ≤ e then (m * 2 ^ (e - 52).toNat, 1)
    else (m, 2 ^ (52 - e).toNat)

/-- The double value of the frequency argument for `a` tenths of MHz
(Python parses the 0.1-resolution literal to the nearest double). -/
def pyFreqR (a : Nat) : Nat × Nat := roundDoubleR a 10

/-- Python `int()` of a non-negative double: truncation toward zero. -/
def intOfR (x : Nat × Nat) : Nat := x.1 / x.2

/-- `int(wr_freq*10)` as the source evaluates it: one double
multiplication, then truncation. -/
def pyTimes10 (a : Nat) : Nat :=
  intOfR (roundDoubleR ((pyFreqR a).1 * 10) (pyFreqR a).2)

/-- `int(wr_freq*rd_freq*100)` as the source evaluates it: the double
product `wr_freq*rd_freq`, then the double product with 100, then
truncation. -/
def pyProd100 (a b : Nat) : Nat :=
  let fa := pyFreqR a
  let fb := pyFreqR b
  let p := roundDoubleR (fa.1 * fb.1) (fa.2 * fb.2)
  intOfR (roundDoubleR (p.1 * 100) p.2)

/-- `self.LCM_freq` exactly as `AsyncDataline.__init__` computes it,
float truncation included. -/
def LCM_freq_py (a b : Nat) : Nat :=
  pyProd100 a b / Nat.gcd (pyTimes10 a) (pyTimes10 b)

/-- `self.wr_enable_tick` as the source computes it. -/
def wr_enable_tick_py (a b : Nat) : Nat := LCM_freq_py a b / pyTimes10 a

/-- `self.rd_enable_tick` as the source computes it. -/
def rd_enable_tick_py (a b : Nat) : Nat := LCM_freq_py a b / pyTimes10 b

/-!
Frame packetisers (`Sim/packet_builder.py`).  The drain trace handed to
`build_packet` is the ordered list of `(channel_id, word)` entries of the
arbiter output file (the time-step column never influences the frame
structure); the text file written out is modelled as a list of tokens.
-/

/-- One written token of a packetised stream: `SOF 0xFACE`, header
`0x0001`, `EOF 0xDEAD`, the fixed-length control word
`(channel_id, word_length)`, the variable-length channel start `0xC0DE`,
a channel id word, or a payload word. -/
inductive Tok where
  | sof
  | header
  | eof
  | ctrl (cid : Nat) (wlen : Nat)
  | chs
  | cid (c : Nat)
  | word (w : Nat)
deriving DecidableEq, Repr

/-- Number of hex digits of `w`, i.e. `len(hex(w)) - 2` for the `0x`
prefix of the Python hex string the word arrives as. -/
def hexLen (w : Nat) : Nat := (Nat.toDigits 16 w).length

/-- Running state of `build_packet` in either packetiser: `curr_id_x`
(−1 = no channel yet), `header_cnt`, `ender_cnt`, the
`_encoded_packet_size` word counter and the emitted token stream. -/
structure PackState where
  curr_id_x : Int
  header_cnt : Nat
  ender_cnt : Nat
  encoded_size : Nat
  out : List Tok
deriving DecidableEq, Repr

/-- Initial state of either `build_packet`: write `SOF`+header, count 2
words, `header_cnt = 1`. -/
def packInit : PackState :=
  { curr_id_x := -1, header_cnt := 1, ender_cnt := 0, encoded_size := 2,
    out := [Tok.sof, Tok.header] }

/-- Sealing of the current frame shared by both variants: when the
channel id changed and decreased, emit `EOF` then a fresh `SOF`+header,
add 3 words and bump both counters. -/
def sealIfDecrease (st : PackState) (cid : Nat) : PackState :=
  if st.curr_id_x ≠ -1 ∧ (cid : Int) < st.curr_id_x then
    { st with out := st.out ++ [Tok.eof, Tok.sof, Tok.header],
              encoded_size := st.encoded_size + 3,
              ender_cnt := st.ender_cnt + 1,
              header_cnt := st.header_cnt + 1 }
  else st

/-- One trace line of `CARR_packer_fixed_length.build_packet`: on a
channel change, seal a decreasing frame, then emit the
`(channel_id, word_length)` control word and the payload word (2 words);
otherwise emit the payload word alone (1 word). -/
def fixed_line (st : PackState) (e : Nat × Nat) : PackState :=
  if (e.1 : Int) ≠ st.curr_id_x then
    let st1 := sealIfDecrease st e.1
    { st1 with curr_id_x := (e.1 : Int),
               out := st1.out ++ [Tok.ctrl e.1 (hexLen e.2), Tok.word e.2],
               encoded_size := st1.encoded_size + 2 }
  else
    { st with out := st.out ++ [Tok.word e.2],
              encoded_size := st.encoded_size + 1 }

/-- `CARR_packer_fixed_length.build_packet` over a drain trace: initial
`SOF`+header, the per-line loop, then the final `EOF`. -/
def fixed_build (entries : List (Nat × Nat)) : PackState :=
  let st := entries.foldl fixed_line packInit
  { st with out := st.out ++ [Tok.eof],
            encoded_size := st.encoded_size + 1,
            ender_cnt := st.ender_cnt + 1 }

/-- The reserved control values of the variable-length packetiser:
`0xC0DE` (channel start), `0xDEAD` (EOF), `0xBEEF` (escape). -/
def special_characters : List Nat := [0xC0DE, 0xDEAD, 0xBEEF]

/-- Value-level projection of
`CARR_PACKER_VARIABLE_LENGTH.word_processing` under the assumption that
the trace spells words in the uppercase form the filter's string list
uses: a reserved word becomes the escape word `0xBEEF` followed by the
word XORed with `0xFFFF`; any other word passes through unchanged.  The
faithful string-level filter is `word_processing_str` below — the
source compares the raw hex string case-sensitively, so this value
level is used only for the frame-structure embedding, whose header and
ender counters do not depend on whether a payload word is escaped. -/
def word_processing (w : Nat) : List Nat :=
  if w ∈ special_characters then [0xBEEF, Nat.xor w 0xFFFF] else [w]

/-- One trace line of `CARR_PACKER_VARIABLE_LENGTH.build_packet`: on a
channel change, seal a decreasing frame, then emit channel start and
channel id (2 words) followed by the escaped payload; otherwise just the
escaped payload.  Escaped payloads count 2 words, plain ones 1. -/
def var_line (st : PackState) (e : Nat × Nat) : PackState :=
  let payload := (word_processing e.2).map Tok.word
  let cost := if e.2 ∈ special_characters then 2 else 1
  if (e.1 : Int) ≠ st.curr_id_x then
    let st1 := sealIfDecrease st e.1
    { st1 with curr_id_x := (e.1 : Int),
               out := st1.out ++ [Tok.chs, Tok.cid e.1] ++ payload,
               encoded_size := st1.encoded_size + 2 + cost }
  else
    { st with out := st.out ++ payload,
              encoded_size := st.encoded_size + cost }

/-- `CARR_PACKER_VARIABLE_LENGTH.build_packet` over a drain trace. -/
def var_build (entries : List (Nat × Nat)) : PackState :=
  let st := entries.foldl var_line packInit
  { st with out := st.out ++ [Tok.eof],
            encoded_size := st.encoded_size + 1,
            ender_cnt := st.ender_cnt + 1 }

/-!
String-level embedding of the escape filter.  `word_processing` in the
source receives the raw hex-string column of the drain-trace file and
compares it, case-sensitively, against the uppercase spellings
`["0xC0DE", "0xDEAD", "0xBEEF"]`; the trace itself is written by
`AsyncDataline.write_up_popped_words` with Python `hex()`, which emits
lowercase digits.
-/

/-- Value of one hexadecimal digit character (0 for non-digits, which
never arise in the strings handled here). -/
def hexDigitVal (c : Char) : Nat :=
  if '0' ≤ c ∧ c ≤ '9' then c.toNat - '0'.toNat
  else if 'a' ≤ c ∧ c ≤ 'f' then 10 + c.toNat - 'a'.toNat
  else if 'A' ≤ c ∧ c ≤ 'F' then 10 + c.toNat - 'A'.toNat
  else 0

/-- Drop a leading `0x`/`0X`, as Python `int(word, 16)` accepts. -/
def stripHexPrefix : List Char → List Char
  | '0' :: 'x' :: rest => rest
  | '0' :: 'X' :: rest => rest
  | l => l

/-- Accumulator loop of the hex parse. -/
def parseHexAux : List Char → Nat → Nat
  | [], acc => acc
  | c :: rest, acc => parseHexAux rest (acc * 16 + hexDigitVal c)

/-- `int(word, 16)`: parse a hex string (optional `0x`/`0X` prefix,
either digit case). -/
def parseHex (s : String) : Nat := parseHexAux (stripHexPrefix s.data) 0

/-- Python `hex(n)` for a non-negative integer: `0x` followed by
lowercase hexadecimal digits.  This is the format in which
`AsyncDataline.write_up_popped_words` records every popped word in the
drain trace. -/
def pyHex (n : Nat) : String := "0x" ++ String.mk (Nat.toDigits 16 n)

/-- Python `str.upper()` on the ASCII strings handled here. -/
def pyUpper (s : String) : String := String.mk (s.data.map Char.toUpper)

/-- The `special_characters` string list of
`CARR_PACKER_VARIABLE_LENGTH.word_processing`: the exact, uppercase
spellings the filter matches against. -/
def special_strings : List String := ["0xC0DE", "0xDEAD", "0xBEEF"]

/-- `CARR_PACKER_VARIABLE_LENGTH.word_processing`, faithfully at string
level: if the raw hex-string word is (case-sensitively) one of the
reserved spellings, return `"0xBEEF\n" + hex(int(word,16) ^ 0xFFFF).upper() + "\n"`,
else return the word followed by a newline. -/
def word_processing_str (word : String) : String :=
  if word ∈ special_strings then
    "0xBEEF\n" ++ pyUpper (pyHex (Nat.xor (parseHex word) 0xFFFF)) ++ "\n"
  else
    word ++ "\n"

/-!
Operation sequences over a single bounded queue, for the queue-level
properties.  A failed operation raises in Python without mutating the
queue, so the surviving object state after a failure is the unchanged
queue.
-/

/-- One queue operation of a push/pop sequence. -/
inductive QOp where
  | push (w : Int)
  | pop
deriving DecidableEq, Repr

/-- Apply one operation; on failure the queue is left unchanged (the
Python exception aborts the caller but does not mutate the list). -/
def applyOp (f : Fifo) : QOp → Fifo
  | .push w =>
    match f.push w with
    | .ok f2 => f2
    | .error _ => f
  | .pop =>
    match f.pop with
    | .ok r => r.2
    | .error _ => f

/-- Run a sequence of push/pop operations. -/
def runOps (f : Fifo) (ops : List QOp) : Fifo := ops.foldl applyOp f

/-- Fuel-bounded drain loop: pop until the queue is empty. -/
def drainAux : Nat → Fifo → List Int
  | 0, _ => []
  | fuel + 1, f =>
    match f.pop with
    | .error _ => []
    | .ok (d, f2) => d :: drainAux fuel f2

/-- Pop every buffered word, in pop order. -/
def drainAll (f : Fifo) : List Int := drainAux f.buffer.length f

lemma applyOp_push (f : Fifo) (w : Int) :
    applyOp f (.push w) =
      if ¬ (w > 2 ^ f.data_width - 1 ∨ w < 0) ∧ f.buffer.length < f.data_depth
      then { f with buffer := f.buffer ++ [w] } else f := by
  simp only [applyOp, Fifo.push]
  by_cases h1 : w > 2 ^ f.data_width - 1 ∨ w < 0
  · rw [if_pos h1]
    simp [h1]
  · rw [if_neg h1]
    by_cases h2 : f.buffer.length < f.data_depth
    · rw [if_pos h2]
      simp [h1, h2]
    · rw [if_neg h2]
      simp [h1, h2]

lemma applyOp_pop (f : Fifo) : applyOp f .pop = { f with buffer := f.buffer.tail } := by
  rcases f with ⟨buf, d, wd⟩
  cases buf <;> simp [applyOp, Fifo.pop]

lemma applyOp_depth (f : Fifo) (op : QOp) : (applyOp f op).data_depth = f.data_depth := by
  cases op with
  | push w =>
    rw [applyOp_push]
    split <;> rfl
  | pop =>
    rw [applyOp_pop]

lemma applyOp_len (f : Fifo) (op : QOp) (h : f.buffer.length ≤ f.data_depth) :
    (applyOp f op).buffer.length ≤ (applyOp f op).data_depth := by
  cases op with
  | push w =>
    rw [applyOp_push]
    split
    · rename_i hc
      simp
      omega
    · exact h
  | pop =>
    rw [applyOp_pop]
    simp only
    have := List.length_tail f.buffer
    omega

lemma runOps_invariant (ops : List QOp) (f : Fifo) (h : f.buffer.length ≤ f.data_depth) :
    (runOps f ops).buffer.length ≤ (runOps f ops).data_depth ∧
      (runOps f ops).data_depth = f.data_depth := by
  induction ops generalizing f with
  | nil => exact ⟨h, rfl⟩
  | cons op rest ih =>
    have h1 := applyOp_len f op h
    have h2 := applyOp_depth f op
    have := ih (applyOp f op) h1
    simp only [runOps, List.foldl_cons] at *
    exact ⟨this.1, this.2.trans h2⟩

lemma drainAux_eq (l : List Int) (f : Fifo) (h : f.buffer = l) :
    drainAux l.length f = l := by
  induction l generalizing f with
  | nil => simp [drainAux]
  | cons d rest ih =>
    simp only [drainAux, Fifo.pop, h, List.length_cons]
    exact congrArg (d :: ·) (ih _ rfl)

lemma drainAll_eq (f : Fifo) : drainAll f = f.buffer := by
  unfold drainAll
  exact drainAux_eq f.buffer f rfl

lemma pushAll_appends (ws : List Int) (f : Fifo)
    (hr : ∀ w ∈ ws, 0 ≤ w ∧ w ≤ 2 ^ f.data_width - 1)
    (hc : f.buffer.length + ws.length ≤ f.data_depth) :
    runOps f (ws.map QOp.push) =
      { f with buffer := f.buffer ++ ws } := by
  induction ws generalizing f with
  | nil => simp [runOps]
  | cons w rest ih =>
    have hw := hr w (by simp)
    have hstep : applyOp f (QOp.push w) = { f with buffer := f.buffer ++ [w] } := by
      simp only [applyOp, Fifo.push]
      rw [if_neg (by omega), if_pos (by simp at hc; omega)]
    simp only [List.map_cons, runOps, List.foldl_cons, hstep]
    have := ih { f with buffer := f.buffer ++ [w] }
      (by intro x hx; exact hr x (by simp [hx]))
      (by simp at hc ⊢; omega)
    simp only [runOps] at this
    rw [this]
    simp

/-- C3: for every sequence of push/pop operations the bounded queue's
length stays between 0 and its capacity; `push` fails with the overflow
error exactly at `length == capacity` (for an in-range word) and with
the range error for a word outside `[0, 2^width - 1]`; `pop` fails on
the empty queue and otherwise removes and returns the oldest word; and
strict FIFO order is preserved: pushing a batch of words appends them in
arrival order and draining returns the buffered words in that same
order. -/
theorem fifo_bounds_and_order :
    (∀ (f : Fifo) (ops : List QOp), f.buffer.length ≤ f.data_depth →
      (runOps f ops).buffer.length ≤ (runOps f ops).data_depth ∧
        (runOps f ops).data_depth = f.data_depth ∧
        0 ≤ (runOps f ops).buffer.length) ∧
    (∀ (f : Fifo) (w : Int), f.buffer.length = f.data_depth →
      0 ≤ w → w ≤ 2 ^ f.data_width - 1 → f.push w = .error .full) ∧
    (∀ (f : Fifo) (w : Int), w > 2 ^ f.data_width - 1 ∨ w < 0 →
      f.push w = .error .range) ∧
    (∀ f : Fifo, f.buffer = [] → f.pop = .error .empty) ∧
    (∀ (f : Fifo) (d : Int) (rest : List Int), f.buffer = d :: rest →
      f.pop = .ok (d, { f with buffer := rest })) ∧
    (∀ (f : Fifo) (ws : List Int),
      (∀ w ∈ ws, 0 ≤ w ∧ w ≤ 2 ^ f.data_width - 1) →
      f.buffer.length + ws.length ≤ f.data_depth →
      (runOps f (ws.map QOp.push)).buffer = f.buffer ++ ws) ∧
    (∀ f : Fifo, drainAll f = f.buffer) := by
  refine ⟨?_, ?_, ?_, ?_, ?_, ?_, ?_⟩
  · intro f ops h
    have := runOps_invariant ops f h
    exact ⟨this.1, this.2, Nat.zero_le _⟩
  · intro f w hfull h0 h1
    simp only [Fifo.push]
    rw [if_neg (by omega), if_neg (by omega)]
  · intro f w hr
    simp only [Fifo.push]
    rw [if_pos hr]
  · intro f hb
    simp [Fifo.pop, hb]
  · intro f d rest hb
    simp [Fifo.pop, hb]
  · intro f ws hr hc
    rw [pushAll_appends ws f hr hc]
  · exact drainAll_eq

/-- Witness for C3 at concrete inputs: a depth-2, width-4 queue. -/
theorem fifo_bounds_and_order_witness :
    (runOps { buffer := [], data_depth := 2, data_width := 4 }
        [QOp.push 3, QOp.push 5, QOp.pop]).buffer.length ≤
      (runOps { buffer := [], data_depth := 2, data_width := 4 }
        [QOp.push 3, QOp.push 5, QOp.pop]).data_depth ∧
    Fifo.push { buffer := [7, 9], data_depth := 2, data_width := 4 } 3 =
      .error .full ∧
    Fifo.push { buffer := [], data_depth := 2, data_width := 4 } 16 =
      .error .range ∧
    Fifo.pop { buffer := [], data_depth := 2, data_width := 4 } =
      .error .empty ∧
    Fifo.pop { buffer := [7, 9], data_depth := 2, data_width := 4 } =
      .ok (7, { buffer := [9], data_depth := 2, data_width := 4 }) ∧
    (runOps { buffer := [], data_depth := 2, data_width := 4 }
        ([3, 5].map QOp.push)).buffer = [3, 5] := by
  refine ⟨(fifo_bounds_and_order.1 _ _ (by decide)).1,
    fifo_bounds_and_order.2.1 _ _ (by decide) (by decide) (by decide),
    fifo_bounds_and_order.2.2.1 _ _ (by decide),
    fifo_bounds_and_order.2.2.2.1 _ (by decide),
    fifo_bounds_and_order.2.2.2.2.1 _ 7 [9] (by decide),
    ?_⟩
  have := fifo_bounds_and_order.2.2.2.2.2.1
    { buffer := [], data_depth := 2, data_width := 4 } [3, 5]
    (by decide) (by decide)
  simpa using this

set_option maxRecDepth 8000 in
/-- C5: under the exact tenths-of-MHz arithmetic the claim describes,
`lcm_period` is the least common multiple of the two frequencies, both
tick intervals divide it for every positive admissible pair, and
`Fw = 20 MHz, Fr = 37.5 MHz` give intervals 15 and 8 — which the
source's float evaluation also reproduces (that product is exact in
doubles).  The source, however, truncates `int(wr_freq*rd_freq*100)`
below the exact product for other admissible pairs: at
`Fw = 1.0, Fr = 2.3` it computes `LCM_freq = 229` (exact value 230)
with intervals 22 and 9, and 229 is divisible by neither, refuting the
claimed invariant on the code as written. -/
theorem dual_clock_tick_intervals :
    (∀ a b : Nat, 0 < a → 0 < b →
      LCM_freq a b = Nat.lcm a b ∧
        wr_enable_tick a b ∣ LCM_freq a b ∧
        rd_enable_tick a b ∣ LCM_freq a b) ∧
    (wr_enable_tick 200 375 = 15 ∧ rd_enable_tick 200 375 = 8) ∧
    (LCM_freq_py 200 375 = 3000 ∧
      wr_enable_tick_py 200 375 = 15 ∧ rd_enable_tick_py 200 375 = 8) ∧
    (LCM_freq 10 23 = 230 ∧
      wr_enable_tick 10 23 = 23 ∧ rd_enable_tick 10 23 = 10) ∧
    (LCM_freq_py 10 23 = 229 ∧
      wr_enable_tick_py 10 23 = 22 ∧ rd_enable_tick_py 10 23 = 9 ∧
      ¬ LCM_freq_py 10 23 % wr_enable_tick_py 10 23 = 0 ∧
      ¬ LCM_freq_py 10 23 % rd_enable_tick_py 10 23 = 0) := by
  refine ⟨?_, by decide, by decide, by decide, by decide⟩
  intro a b _ _
  refine ⟨rfl, ?_, ?_⟩
  · exact ⟨a, (Nat.div_mul_cancel (Nat.dvd_lcm_left a b)).symm⟩
  · exact ⟨b, (Nat.div_mul_cancel (Nat.dvd_lcm_right a b)).symm⟩

/-- Witness for C5 at the documented frequencies 20 MHz / 37.5 MHz. -/
theorem dual_clock_tick_intervals_witness :
    LCM_freq 200 375 = Nat.lcm 200 375 ∧
      wr_enable_tick 200 375 ∣ LCM_freq 200 375 ∧
      rd_enable_tick 200 375 ∣ LCM_freq 200 375 :=
  dual_clock_tick_intervals.1 200 375 (by decide) (by decide)

/-- C7: the escape filter keys on the raw hex string, case-sensitively,
against the uppercase spellings; the repo's own trace writer emits
lowercase `hex()`, so each reserved payload word as actually
represented — `0xdead`, `0xc0de`, `0xbeef` — is passed through
unescaped, while the uppercase spelling `0xDEAD` the claim describes
would be escaped to `0xBEEF` then `0X2152`, whose XOR with `0xFFFF`
restores `0xDEAD`. -/
theorem word_stuffing_case_mismatch :
    pyHex 0xDEAD = "0xdead" ∧
    word_processing_str (pyHex 0xDEAD) = "0xdead\n" ∧
    word_processing_str (pyHex 0xC0DE) = "0xc0de\n" ∧
    word_processing_str (pyHex 0xBEEF) = "0xbeef\n" ∧
    word_processing_str "0xDEAD" = "0xBEEF\n0X2152\n" ∧
    parseHex (pyHex 0xDEAD) = 0xDEAD ∧
    Nat.xor (parseHex "0X2152") 0xFFFF = 0xDEAD := by
  refine ⟨by decide, by decide, by decide, by decide, by decide, by decide, by decide⟩

lemma sealIfDecrease_cnt (st : PackState) (cid : Nat)
    (h : st.header_cnt = st.ender_cnt + 1) :
    (sealIfDecrease st cid).header_cnt = (sealIfDecrease st cid).ender_cnt + 1 := by
  unfold sealIfDecrease
  split
  · simp [h]
  · exact h

lemma fixed_line_cnt (st : PackState) (e : Nat × Nat)
    (h : st.header_cnt = st.ender_cnt + 1) :
    (fixed_line st e).header_cnt = (fixed_line st e).ender_cnt + 1 := by
  unfold fixed_line
  split
  · exact sealIfDecrease_cnt st e.1 h
  · exact h

lemma var_line_cnt (st : PackState) (e : Nat × Nat)
    (h : st.header_cnt = st.ender_cnt + 1) :
    (var_line st e).header_cnt = (var_line st e).ender_cnt + 1 := by
  unfold var_line
  by_cases hc : (e.1 : Int) ≠ st.curr_id_x
  · simp only [if_pos hc]
    exact sealIfDecrease_cnt st e.1 h
  · simp only [if_neg hc]
    exact h

lemma foldl_fixed_cnt (entries : List (Nat × Nat)) (st : PackState)
    (h : st.header_cnt = st.ender_cnt + 1) :
    (entries.foldl fixed_line st).header_cnt =
      (entries.foldl fixed_line st).ender_cnt + 1 := by
  induction entries generalizing st with
  | nil => exact h
  | cons e rest ih => exact ih _ (fixed_line_cnt st e h)

lemma foldl_var_cnt (entries : List (Nat × Nat)) (st : PackState)
    (h : st.header_cnt = st.ender_cnt + 1) :
    (entries.foldl var_line st).header_cnt =
      (entries.foldl var_line st).ender_cnt + 1 := by
  induction entries generalizing st with
  | nil => exact h
  | cons e rest ih => exact ih _ (var_line_cnt st e h)

/-- C6: for both packetiser variants and every drain trace,
`build_packet` ends with as many `SOF`/header emissions as `EOF`
emissions (each decreasing-id frame break emits one of each, and the
final `EOF` balances the initial header), so the header/ender mismatch
warning is never printed. -/
theorem packetiser_header_ender_balanced (entries : List (Nat × Nat)) :
    (fixed_build entries).header_cnt = (fixed_build entries).ender_cnt ∧
      (var_build entries).header_cnt = (var_build entries).ender_cnt := by
  constructor
  · unfold fixed_build
    have := foldl_fixed_cnt entries packInit rfl
    simp only
    omega
  · unfold var_build
    have := foldl_var_cnt entries packInit rfl
    simp only
    omega

/-- C9: `produce_and_push` raises the full-queue error up front only
when the queue is already full at call time (leaving it unchanged), and
with exactly one free slot and a two-word encoder result it enqueues the
first word and then fails on the second push, so the call fails with
overflow although the queue was not full when invoked — and the first
word stays enqueued. -/
theorem produce_and_push_partial_overflow :
    (∀ (ch : Channel) (enc : EncResult), ch.fifo.is_full = true →
      ch.produce_and_push enc = (ch, some .full)) ∧
    (∀ (ch : Channel) (w1 w2 : Int),
      ch.fifo.space_available = 1 →
      0 ≤ w1 → w1 ≤ 2 ^ ch.fifo.data_width - 1 →
      0 ≤ w2 → w2 ≤ 2 ^ ch.fifo.data_width - 1 →
      ch.fifo.is_full = false ∧
        ch.produce_and_push (.two w1 w2) =
          ({ ch with fifo := { ch.fifo with buffer := ch.fifo.buffer ++ [w1] } },
            some .full)) := by
  constructor
  · intro ch enc hfull
    unfold Channel.produce_and_push
    rw [if_pos hfull]
  · intro ch w1 w2 hspace h1l h1u h2l h2u
    have hd : ch.fifo.data_depth = ch.fifo.buffer.length + 1 := by
      unfold Fifo.space_available at hspace
      omega
    have hnf : ch.fifo.is_full = false := by
      simp [Fifo.is_full]
      omega
    refine ⟨hnf, ?_⟩
    unfold Channel.produce_and_push
    rw [hnf]
    simp only [Bool.false_eq_true, if_false, Fifo.push]
    rw [if_neg (by omega), if_pos (by omega)]
    simp only
    rw [if_neg (by omega), if_neg (by simp; omega)]

/-- Witness for C9: width-4 queue of depth 2 holding one word; the
encoder returns the pair (5, 6). -/
theorem produce_and_push_partial_overflow_witness :
    Channel.produce_and_push
        { id := 0, fifo := { buffer := [3, 4], data_depth := 2, data_width := 4 } }
        (.one 5) =
      ({ id := 0, fifo := { buffer := [3, 4], data_depth := 2, data_width := 4 } },
        some .full) ∧
    Channel.produce_and_push
        { id := 0, fifo := { buffer := [3], data_depth := 2, data_width := 4 } }
        (.two 5 6) =
      ({ id := 0, fifo := { buffer := [3, 5], data_depth := 2, data_width := 4 } },
        some .full) :=
  ⟨produce_and_push_partial_overflow.1 _ _ (by decide),
    (produce_and_push_partial_overflow.2 _ 5 6 (by decide) (by decide) (by decide)
      (by decide) (by decide)).2⟩

lemma pop_ok (f : Fifo) (h : f.is_empty = false) : ∃ d f2, f.pop = .ok (d, f2) := by
  cases hb : f.buffer with
  | nil => simp [Fifo.is_empty, hb] at h
  | cons d rest => exact ⟨d, { f with buffer := rest }, by simp [Fifo.pop, hb]⟩

lemma getCh_lt_of_nonempty (chs : List Channel) (i : Nat)
    (h : (getCh chs i).fifo.is_empty = false) : i < chs.length := by
  by_contra hge
  rw [getCh, List.getD_eq_default _ _ (by omega)] at h
  simp [defaultChannel, Fifo.is_empty] at h

lemma rrse_find_sound (chs : List Channel) (fuel : Nat) :
    ∀ (ls : Int) (i : Nat), (rrse_find chs ls fuel).2 = some i →
      (getCh chs i).fifo.is_empty = false := by
  induction fuel with
  | zero =>
    intro ls i h
    simp [rrse_find] at h
  | succ n ih =>
    intro ls i h
    simp only [rrse_find] at h
    by_cases hne : (getCh chs ((ls + 1) % (chs.length : Int)).toNat).fifo.is_empty
    · rw [if_neg (by simp [hne])] at h
      exact ih _ _ h
    · rw [if_pos (by simp [hne])] at h
      simp only at h
      cases h
      simpa using hne

/-- C2: no arbiter `step` can reach the FIFO underflow error from a
state with a non-empty channel set: the plain round-robin, urgency and
CARR steps check the selected FIFO's emptiness before popping, and the
skip-empty policy's selection only returns non-empty channels, so its
unguarded pop also succeeds. -/
theorem arbiter_steps_never_underflow :
    (∀ s : ArbState, s.channels ≠ [] → ∃ t, arbiter_step s = .ok t) ∧
    (∀ s : UrgState, s.channels ≠ [] → ∃ t, urg_step s = .ok t) ∧
    (∀ s : ArbState, s.channels ≠ [] → ∃ t, rrse_step s = .ok t) ∧
    (∀ s : CarrState, s.channels ≠ [] → ∃ t, carr_step s = .ok t) := by
  refine ⟨?_, ?_, ?_, ?_⟩
  · intro s _
    simp only [arbiter_step]
    by_cases h : (getCh (arb_select s).1.channels (arb_select s).2).fifo.is_empty
    · rw [if_neg (by simp [h])]
      exact ⟨_, rfl⟩
    · rw [if_pos (by simp [Bool.not_eq_true] at h ⊢; exact h)]
      obtain ⟨d, f2, hpop⟩ := pop_ok _ (by simpa using h)
      rw [hpop]
      exact ⟨_, rfl⟩
  · intro s _
    simp only [urg_step]
    by_cases h : (getCh (urg_select s).1.channels (urg_select s).2).fifo.is_empty
    · rw [if_neg (by simp [h])]
      exact ⟨_, rfl⟩
    · rw [if_pos (by simp [Bool.not_eq_true] at h ⊢; exact h)]
      obtain ⟨d, f2, hpop⟩ := pop_ok _ (by simpa using h)
      rw [hpop]
      exact ⟨_, rfl⟩
  · intro s _
    simp only [rrse_step]
    cases hsel : (rrse_select s).2 with
    | none => exact ⟨_, rfl⟩
    | some i =>
      have hne : (getCh s.channels i).fifo.is_empty = false := by
        have : (rrse_find s.channels s.last_served s.channels.length).2 = some i := by
          simpa [rrse_select] using hsel
        exact rrse_find_sound s.channels s.channels.length s.last_served i this
      have hch : (rrse_select s).1.channels = s.channels := by
        simp [rrse_select]
      have hne2 : (getCh (rrse_select s).1.channels i).fifo.is_empty = false := by
        rw [hch]
        exact hne
      obtain ⟨d, f2, hpop⟩ := pop_ok _ hne2
      dsimp only
      rw [hpop]
      exact ⟨_, rfl⟩
  · intro s _
    simp only [carr_step]
    by_cases h0 : s.channels.length = 0
    · rw [if_pos h0]
      exact ⟨_, rfl⟩
    rw [if_neg h0]
    by_cases hall : carr_all_empty s = true
    · rw [if_pos hall]
      exact ⟨_, rfl⟩
    rw [if_neg hall]
    by_cases h : (getCh (carr_select s).1.channels (carr_select s).2).fifo.is_empty
    · rw [if_neg (by simp [h])]
      exact ⟨_, rfl⟩
    · rw [if_pos (by simp [Bool.not_eq_true] at h ⊢; exact h)]
      obtain ⟨d, f2, hpop⟩ := pop_ok _ (by simpa using h)
      rw [hpop]
      exact ⟨_, rfl⟩

/-- Witness for C2: one-channel states, one word buffered, for each of
the four policies. -/
theorem arbiter_steps_never_underflow_witness :
    (∃ t, arbiter_step
      { channels := [{ id := 0, fifo := { buffer := [1], data_depth := 4, data_width := 16 } }],
        last_served := -1, channel_select := [] } = .ok t) ∧
    (∃ t, urg_step
      { channels := [{ id := 0, fifo := { buffer := [1], data_depth := 4, data_width := 16 } }],
        last_served := -1, channel_select := [], urgency := [0], age := [0] } = .ok t) ∧
    (∃ t, rrse_step
      { channels := [{ id := 0, fifo := { buffer := [], data_depth := 4, data_width := 16 } }],
        last_served := -1, channel_select := [] } = .ok t) ∧
    (∃ t, carr_step
      { channels := [{ id := 0, fifo := { buffer := [1], data_depth := 4, data_width := 16 } }],
        channel_select := [], curr_idx := 0, burst_count := 0, max_reads := 16,
        last_popped_word := none } = .ok t) :=
  ⟨arbiter_steps_never_underflow.1 _ (by simp),
    arbiter_steps_never_underflow.2.1 _ (by simp),
    arbiter_steps_never_underflow.2.2.1 _ (by simp),
    arbiter_steps_never_underflow.2.2.2 _ (by simp)⟩

/-- Helper for concrete states: channel `i` with buffered words `ws` in a
FIFO of depth `d` and width 16. -/
def mkCh (i : Nat) (ws : List Int) (d : Nat) : Channel :=
  { id := i, fifo := { buffer := ws, data_depth := d, data_width := 16 } }

/-- The spec's urgency example: three channels with queue occupancies
`[3, 1, 5]` and ages `[0, 0, 0]`. -/
def urgencyExampleState : UrgState :=
  { channels := [mkCh 0 [1, 2, 3] 256, mkCh 1 [4] 256, mkCh 2 [5, 6, 7, 8, 9] 256],
    last_served := -1, channel_select := [], urgency := [0, 0, 0], age := [0, 0, 0] }

/-- C1, counterexample: with occupancies `[3, 1, 5]` and ages
`[0, 0, 0]`, `ArbiterUrgency.select_channel` does not compute urgencies
`[12, 4, 20]` — each age is incremented to 1 before the urgency is
computed, giving `[13, 5, 21]`. -/
theorem urgency_example_counterexample :
    (urg_select urgencyExampleState).1.urgency ≠ [12, 4, 20] := by decide

/-- C1, amended: urgencies come out as `[13, 5, 21]`; channel 2 is
selected and dequeued and its age resets to 0; channel 0's age is
already 1 right after that tick (ages `[1, 1, 0]`, occupancies
`[3, 1, 4]`), and on the next tick in which channel 0 is non-empty and
not selected its age becomes 2. -/
theorem urgency_example_amended :
    (urg_select urgencyExampleState).1.urgency = [13, 5, 21] ∧
    (urg_select urgencyExampleState).2 = 2 ∧
    (urg_step urgencyExampleState).toOption.map
        (fun t => (t.age, t.channel_select, t.channels.map (fun c => c.fifo.buffer.length)))
      = some ([1, 1, 0], [2], [3, 1, 4]) ∧
    ((urg_step urgencyExampleState).toOption.bind (fun t => (urg_step t).toOption)).map
        (fun t => (t.age, t.channel_select)) = some ([2, 2, 0], [2, 2]) := by
  refine ⟨by decide, by decide, by decide, by decide⟩

lemma emod_add_shift (c x n : Int) : (c % n + x) % n = (c + x) % n := by
  calc (c % n + x) % n = (c % n % n + x % n) % n := by rw [← Int.add_emod]
    _ = (c % n + x % n) % n := by rw [Int.emod_emod_of_dvd c (dvd_refl n)]
    _ = (c + x) % n := by rw [← Int.add_emod]

lemma selectOutputs_eq (k : Nat) :
    ∀ s : ArbState, selectOutputs s k =
      (List.range k).map
        (fun (j : Nat) => ((s.last_served + 1 + (j : Int)) % (s.channels.length : Int)).toNat) := by
  induction k with
  | zero =>
    intro s
    simp [selectOutputs]
  | succ k ih =>
    intro s
    rw [selectOutputs, List.range_succ_eq_map, List.map_cons, List.map_map]
    refine congrArg₂ List.cons ?_ ?_
    · norm_num [arb_select]
    · rw [ih]
      dsimp [arb_select]
      apply List.map_congr_left
      intro j _
      have h1 : (s.last_served + 1) % (s.channels.length : Int) + 1 + (j : Int)
          = (s.last_served + 1) % (s.channels.length : Int) + (1 + (j : Int)) := by ring
      rw [h1, emod_add_shift]
      congr 2
      push_cast
      ring

lemma emod_toNat_inj (c n : Int) (x y : Nat) (hn : 0 < n)
    (hx : (x : Int) < n) (hy : (y : Int) < n)
    (h : ((c + x) % n).toNat = ((c + y) % n).toNat) : x = y := by
  have hnz : n ≠ 0 := by omega
  have h1 : 0 ≤ (c + x) % n := Int.emod_nonneg _ hnz
  have h2 : 0 ≤ (c + y) % n := Int.emod_nonneg _ hnz
  have heq : (c + x) % n = (c + y) % n := by omega
  have hsub : (c + x - (c + y)) % n = 0 :=
    (Int.emod_eq_emod_iff_emod_sub_eq_zero).mp heq
  have hdvd : n ∣ (x : Int) - y := by
    have := Int.dvd_of_emod_eq_zero hsub
    have hr : c + x - (c + y) = (x : Int) - y := by ring
    rwa [hr] at this
  have hz : (x : Int) - y = 0 :=
    Int.eq_zero_of_abs_lt_dvd hdvd (abs_lt.mpr ⟨by omega, by omega⟩)
  omega

lemma emod_toNat_surj (c n : Int) (t : Nat) (hn : 0 < n) (ht : (t : Int) < n) :
    ∃ j : Nat, j < n.toNat ∧ ((c + j) % n).toNat = t := by
  have hnz : n ≠ 0 := by omega
  have h1 : 0 ≤ ((t : Int) - c) % n := Int.emod_nonneg _ hnz
  have h2 : ((t : Int) - c) % n < n := Int.emod_lt_of_pos _ hn
  refine ⟨(((t : Int) - c) % n).toNat, by omega, ?_⟩
  rw [Int.toNat_of_nonneg h1, add_comm, emod_add_shift]
  have hr : (t : Int) - c + c = t := by ring
  rw [hr, Int.emod_eq_of_lt (by positivity) ht]
  omega

/-- C8: from any state of the plain round-robin arbiter over a non-empty
channel set, the indices returned by `N` consecutive `select_channel`
calls contain every channel index in `{0..N-1}` exactly once, whatever
the queue occupancies are (selection never looks at emptiness). -/
theorem round_robin_visits_each_once (s : ArbState) (i : Nat)
    (hne : s.channels ≠ []) (hi : i < s.channels.length) :
    (selectOutputs s s.channels.length).count i = 1 := by
  have hn : 0 < s.channels.length := List.length_pos.mpr hne
  have hnI : (0 : Int) < (s.channels.length : Int) := by exact_mod_cast hn
  rw [selectOutputs_eq]
  apply List.count_eq_one_of_mem
  · refine List.Nodup.map_on ?_ (List.nodup_range _)
    intro x hx y hy hxy
    have hx2 : (x : Int) < (s.channels.length : Int) := by
      exact_mod_cast List.mem_range.mp hx
    have hy2 : (y : Int) < (s.channels.length : Int) := by
      exact_mod_cast List.mem_range.mp hy
    exact emod_toNat_inj (s.last_served + 1) _ x y hnI hx2 hy2 hxy
  · obtain ⟨j, hj, hval⟩ :=
      emod_toNat_surj (s.last_served + 1) (s.channels.length : Int) i hnI
        (by exact_mod_cast hi)
    refine List.mem_map.mpr ⟨j, List.mem_range.mpr (by simpa using hj), hval⟩

/-- Witness for C8: a three-channel state (one non-empty queue) starting
from `last_served = 1`; each index is returned once in three selects. -/
theorem round_robin_visits_each_once_witness :
    (selectOutputs
      { channels := [mkCh 0 [] 4, mkCh 1 [1] 4, mkCh 2 [] 4],
        last_served := 1, channel_select := [] } 3).count 2 = 1 :=
  round_robin_visits_each_once
    { channels := [mkCh 0 [] 4, mkCh 1 [1] 4, mkCh 2 [] 4],
      last_served := 1, channel_select := [] } 2 (by simp) (by simp)

/-- CARR scenario, first opportunity: two depth-6 channels, `max_reads = 2`;
channel 0 holds three words, channel 1 one word (not almost full at
depth 6, where almost-full means occupancy ≥ 2). -/
def carrScenarioStart : CarrState :=
  { channels := [mkCh 0 [10, 11, 12] 6, mkCh 1 [20] 6],
    channel_select := [], curr_idx := 0, burst_count := 0, max_reads := 2,
    last_popped_word := none }

/-- CARR scenario, third opportunity: channel 0 has been selected and
dequeued twice consecutively (`burst_count = 2`) and the producer has
meanwhile refilled channel 1 to four words, making it almost full. -/
def carrScenarioThird : CarrState :=
  { channels := [mkCh 0 [12] 6, mkCh 1 [20, 21, 22, 23] 6],
    channel_select := [0, 0], curr_idx := 0, burst_count := 2, max_reads := 2,
    last_popped_word := some 11 }

/-- C4: whenever some channel other than the current one is non-empty
and almost full, `CARRArbiter.select_channel` preempts to the first such
channel in forward round-robin scan order and resets `burst_count`,
before the current-empty and burst-cap rules are even consulted; in the
concrete `max_reads = 2` scenario, two consecutive dequeues from
channel 0 are followed by a third selection that preempts to the
almost-full channel 1, resets `burst_count` and dequeues from it. -/
theorem carr_preemption_priority :
    (∀ (s : CarrState) (j : Nat), carr_all_empty s = false →
      carr_find_almost_full_other s = some j →
      carr_select s = ({ s with curr_idx := (j : Int), burst_count := 0 }, j)) ∧
    (carr_step carrScenarioStart).toOption.bind (fun t => (carr_step t).toOption)
      = some { channels := [mkCh 0 [12] 6, mkCh 1 [20] 6],
               channel_select := [0, 0], curr_idx := 0, burst_count := 2,
               max_reads := 2, last_popped_word := some 11 } ∧
    (getCh carrScenarioThird.channels 1).fifo.almost_full = true ∧
    carr_find_almost_full_other carrScenarioThird = some 1 ∧
    carr_select carrScenarioThird =
      ({ carrScenarioThird with curr_idx := 1, burst_count := 0 }, 1) ∧
    (carr_step carrScenarioThird).toOption.map
        (fun t => (t.curr_idx, t.burst_count, t.channel_select, t.last_popped_word))
      = some (1, 1, [0, 0, 1], some 20) := by
  refine ⟨?_, by decide, by decide, by decide, by decide, by decide⟩
  intro s j hall hfind
  unfold carr_select
  rw [if_neg (by simp [hall]), hfind]

/-- Witness for C4's general preemption rule, applied at the concrete
third-opportunity state. -/
theorem carr_preemption_priority_witness :
    carr_select carrScenarioThird =
      ({ carrScenarioThird with curr_idx := ((1 : Nat) : Int), burst_count := 0 }, 1) :=
  carr_preemption_priority.1 carrScenarioThird 1 (by decide) (by decide)

lemma totalWords_cons (c : Channel) (l : List Channel) :
    totalWords (c :: l) = c.fifo.buffer.length + totalWords l := by
  simp [totalWords]

lemma totalWords_set (chs : List Channel) (i : Nat) (c2 : Channel) (h : i < chs.length) :
    totalWords (chs.set i c2) + (getCh chs i).fifo.buffer.length
      = totalWords chs + c2.fifo.buffer.length := by
  induction chs generalizing i with
  | nil => simp at h
  | cons a rest ih =>
    cases i with
    | zero =>
      simp only [List.set_cons_zero, totalWords_cons, getCh, List.getD_cons_zero]
      omega
    | succ n =>
      simp only [List.set_cons_succ, totalWords_cons, getCh, List.getD_cons_succ]
      have := ih n (by simpa using h)
      simp only [getCh] at this
      omega

lemma pop_spec (f : Fifo) (d : Int) (f2 : Fifo) (h : f.pop = .ok (d, f2)) :
    f.buffer = d :: f2.buffer := by
  unfold Fifo.pop at h
  cases hb : f.buffer with
  | nil =>
    rw [hb] at h
    simp at h
  | cons x rest =>
    rw [hb] at h
    simp only [Except.ok.injEq, Prod.mk.injEq] at h
    rw [h.1, ← h.2]

lemma scoreChannels_all_empty (chs : List Channel) (ages : List Nat)
    (h : ∀ ch ∈ chs, ch.fifo.is_empty = true) :
    scoreChannels chs ages = List.replicate chs.length (0, 0) := by
  induction chs generalizing ages with
  | nil => simp [scoreChannels]
  | cons a rest ih =>
    have ha := h a (by simp)
    have hlen : a.fifo.space_used = 0 := by
      simp [Fifo.is_empty, List.isEmpty_iff] at ha
      simp [Fifo.space_used, ha]
    simp only [scoreChannels, ha, if_true, hlen, List.length_cons, List.replicate_succ]
    exact congrArg _ (ih ages.tail (fun ch hch => h ch (by simp [hch])))

lemma argmaxAux_zeros (l : List Nat) :
    ∀ i bi, (∀ v ∈ l, v = 0) → argmaxAux l i bi 0 = bi := by
  induction l with
  | nil => intro i bi _; rfl
  | cons v rest ih =>
    intro i bi h
    have hv := h v (by simp)
    simp only [argmaxAux, hv, gt_iff_lt, lt_irrefl, if_false]
    exact ih _ _ (fun x hx => h x (by simp [hx]))

lemma getCh_zero_mem (chs : List Channel) (h : chs ≠ []) : getCh chs 0 ∈ chs := by
  cases chs with
  | nil => exact absurd rfl h
  | cons a rest => simp [getCh]

/-- C10: the `channel_select` log counts successful dequeues for the
round-robin, skip-empty and CARR arbiters — each step either leaves the
log and the total buffered word count unchanged, or appends exactly one
entry while removing exactly one word — whereas an `ArbiterUrgency.step`
taken with every channel empty still appends the id of channel 0 (the
first-occurrence argmax of the all-zero urgencies) without dequeuing
anything, so its log can grow longer than the number of words popped. -/
theorem channel_select_log_accounting :
    (∀ s : ArbState, s.channels ≠ [] → ∃ t, arbiter_step s = .ok t ∧
      ((t.channel_select = s.channel_select ∧
          totalWords t.channels = totalWords s.channels) ∨
        (t.channel_select.length = s.channel_select.length + 1 ∧
          totalWords t.channels + 1 = totalWords s.channels))) ∧
    (∀ s : ArbState, s.channels ≠ [] → ∃ t, rrse_step s = .ok t ∧
      ((t.channel_select = s.channel_select ∧
          totalWords t.channels = totalWords s.channels) ∨
        (t.channel_select.length = s.channel_select.length + 1 ∧
          totalWords t.channels + 1 = totalWords s.channels))) ∧
    (∀ s : CarrState, s.channels ≠ [] → ∃ t, carr_step s = .ok t ∧
      ((t.channel_select = s.channel_select ∧
          totalWords t.channels = totalWords s.channels) ∨
        (t.channel_select.length = s.channel_select.length + 1 ∧
          totalWords t.channels + 1 = totalWords s.channels))) ∧
    (∀ s : UrgState, s.channels ≠ [] →
      (∀ ch ∈ s.channels, ch.fifo.is_empty = true) →
      ∃ t, urg_step s = .ok t ∧
        t.channel_select = s.channel_select ++ [(getCh s.channels 0).id] ∧
        totalWords t.channels = totalWords s.channels) := by
  refine ⟨?_, ?_, ?_, ?_⟩
  · intro s _
    simp only [arbiter_step]
    by_cases h : (getCh (arb_select s).1.channels (arb_select s).2).fifo.is_empty
    · rw [if_neg (by simp [h])]
      exact ⟨_, rfl, Or.inl ⟨rfl, rfl⟩⟩
    · rw [if_pos (by simp [Bool.not_eq_true] at h ⊢; exact h)]
      have hne : (getCh (arb_select s).1.channels (arb_select s).2).fifo.is_empty = false := by
        simpa using h
      obtain ⟨d, f2, hpop⟩ := pop_ok _ hne
      rw [hpop]
      refine ⟨_, rfl, Or.inr ⟨by simp [arb_select], ?_⟩⟩
      have hlt : (arb_select s).2 < (arb_select s).1.channels.length :=
        getCh_lt_of_nonempty _ _ hne
      have hset := totalWords_set (arb_select s).1.channels (arb_select s).2
        { getCh (arb_select s).1.channels (arb_select s).2 with fifo := f2 } hlt
      have hbuf := pop_spec _ _ _ hpop
      simp only [hbuf, List.length_cons] at hset
      dsimp only [arb_select] at hset ⊢
      omega
  · intro s _
    simp only [rrse_step]
    cases hsel : (rrse_select s).2 with
    | none => exact ⟨_, rfl, Or.inl ⟨rfl, rfl⟩⟩
    | some i =>
      have hne : (getCh s.channels i).fifo.is_empty = false := by
        have : (rrse_find s.channels s.last_served s.channels.length).2 = some i := by
          simpa [rrse_select] using hsel
        exact rrse_find_sound s.channels s.channels.length s.last_served i this
      have hne2 : (getCh (rrse_select s).1.channels i).fifo.is_empty = false := hne
      obtain ⟨d, f2, hpop⟩ := pop_ok _ hne2
      dsimp only
      rw [hpop]
      refine ⟨_, rfl, Or.inr ⟨by simp [rrse_select], ?_⟩⟩
      have hlt : i < (rrse_select s).1.channels.length :=
        getCh_lt_of_nonempty _ _ hne2
      have hset := totalWords_set (rrse_select s).1.channels i
        { getCh (rrse_select s).1.channels i with fifo := f2 } hlt
      have hbuf := pop_spec _ _ _ hpop
      simp only [hbuf, List.length_cons] at hset
      dsimp only [rrse_select] at hset ⊢
      omega
  · intro s _
    simp only [carr_step]
    by_cases h0 : s.channels.length = 0
    · rw [if_pos h0]
      exact ⟨_, rfl, Or.inl ⟨rfl, rfl⟩⟩
    rw [if_neg h0]
    by_cases hall : carr_all_empty s = true
    · rw [if_pos hall]
      exact ⟨_, rfl, Or.inl ⟨rfl, rfl⟩⟩
    rw [if_neg hall]
    have hpres : (carr_select s).1.channels = s.channels ∧
        (carr_select s).1.channel_select = s.channel_select := by
      unfold carr_select
      split
      · exact ⟨rfl, rfl⟩
      · split
        · exact ⟨rfl, rfl⟩
        · split
          · exact ⟨rfl, rfl⟩
          · split
            · exact ⟨rfl, rfl⟩
            · exact ⟨rfl, rfl⟩
    by_cases h : (getCh (carr_select s).1.channels (carr_select s).2).fifo.is_empty
    · rw [if_neg (by simp [h])]
      exact ⟨_, rfl, Or.inl ⟨hpres.2, by rw [hpres.1]⟩⟩
    · rw [if_pos (by simp [Bool.not_eq_true] at h ⊢; exact h)]
      have hne : (getCh (carr_select s).1.channels (carr_select s).2).fifo.is_empty
          = false := by simpa using h
      obtain ⟨d, f2, hpop⟩ := pop_ok _ hne
      rw [hpop]
      refine ⟨_, rfl, Or.inr ⟨by simp [hpres.2], ?_⟩⟩
      have hlt : (carr_select s).2 < (carr_select s).1.channels.length :=
        getCh_lt_of_nonempty _ _ hne
      have hset := totalWords_set (carr_select s).1.channels (carr_select s).2
        { getCh (carr_select s).1.channels (carr_select s).2 with fifo := f2 } hlt
      have hbuf := pop_spec _ _ _ hpop
      simp only [hbuf, List.length_cons] at hset
      dsimp only at hset ⊢
      rw [hpres.1] at hset ⊢
      omega
  · intro s hne hall
    have hsel2 : (urg_select s).2 = 0 := by
      simp only [urg_select, scoreChannels_all_empty s.channels s.age hall]
      have : List.map Prod.fst (List.replicate s.channels.length ((0 : Nat), (0 : Nat)))
          = List.replicate s.channels.length 0 := by
        simp
      rw [this]
      exact argmaxAux_zeros _ 0 0 (by intro v hv; exact List.eq_of_mem_replicate hv)
    have hch0 : getCh s.channels 0 ∈ s.channels := getCh_zero_mem s.channels hne
    have hemp : (getCh (urg_select s).1.channels (urg_select s).2).fifo.is_empty = true := by
      have hchans : (urg_select s).1.channels = s.channels := rfl
      rw [hchans, hsel2]
      exact hall _ hch0
    simp only [urg_step]
    rw [if_neg (by simp [hemp])]
    refine ⟨_, rfl, ?_, rfl⟩
    have hchans : (urg_select s).1.channels = s.channels := rfl
    simp only [hchans, hsel2]
    have hcs : (urg_select s).1.channel_select = s.channel_select := rfl
    rw [hcs]

/-- Witness for C10: concrete one- and two-channel states for each
policy; the urgency case exhibits the log over-count on an all-empty
state. -/
theorem channel_select_log_accounting_witness :
    (∃ t, arbiter_step
      { channels := [mkCh 0 [1] 4], last_served := -1, channel_select := [] } = .ok t ∧
      ((t.channel_select = [] ∧ totalWords t.channels = totalWords [mkCh 0 [1] 4]) ∨
        (t.channel_select.length = 0 + 1 ∧
          totalWords t.channels + 1 = totalWords [mkCh 0 [1] 4]))) ∧
    (∃ t, urg_step
      { channels := [mkCh 0 [] 4, mkCh 1 [] 4], last_served := -1,
        channel_select := [7], urgency := [0, 0], age := [0, 0] } = .ok t ∧
      t.channel_select = [7] ++ [(getCh [mkCh 0 [] 4, mkCh 1 [] 4] 0).id] ∧
      totalWords t.channels = totalWords [mkCh 0 [] 4, mkCh 1 [] 4]) :=
  ⟨channel_select_log_accounting.1 _ (by simp),
    channel_select_log_accounting.2.2.2 _ (by simp) (by decide)⟩
